import Mathlib

/-!
Shallow embedding of the fraction layer of `src/frac.rs` (type-level
rational arithmetic), translated to value level. Type-level unsigned
numerals (`UTerm`/`UInt<U, B>`) become `Nat`; the integer-primitive
operators the fraction layer consumes (`Gcd`, `Lcm`, `PartialDiv`, `Mul`,
`Add`, `Sub`, `Pow`, `Cmp`) become the corresponding total `Nat`
operations, which the spec declares external and assumed correct.
The static `NonZero` marker becomes `≠ 0` side conditions in theorems.
-/

namespace TypenumFrac

/-- Value-level model of the unsigned fraction types: `UF0` is the zero
singleton (`struct UF0`), `UFrac n d` models `UFrac<N, D>` with numerator
`n` and denominator `d` (`src/frac.rs` lines 19-49). -/
inductive UFracV where
  | UF0 : UFracV
  | UFrac (n d : Nat) : UFracV
deriving DecidableEq, Repr

/-- Value-level model of the signed fraction types: `F0` the signed zero
singleton, `PFrac u` / `NFrac u` the positive/negative wrappers around an
unsigned magnitude (`src/frac.rs` lines 70-110). -/
inductive FracV where
  | F0 : FracV
  | PFrac (u : UFracV) : FracV
  | NFrac (u : UFracV) : FracV
deriving DecidableEq, Repr

/-- `Trim` on unsigned fractions (`src/frac.rs` lines 151-184): `UF0`
trims to itself, a zero-numerator pair (`UFrac<UTerm, D>`) collapses to
`UF0`, and a non-zero-numerator pair divides both components by their
gcd. -/
def trim : UFracV → UFracV
  | .UF0 => .UF0
  | .UFrac n d =>
    if n = 0 then .UF0
    else .UFrac (n / Nat.gcd n d) (d / Nat.gcd n d)

/-- `Trim` on signed fractions (`src/frac.rs` lines 186-217): `F0` trims
to itself; `PFrac<U>`/`NFrac<U>` trim the wrapped magnitude and rewrap it
with the same sign constructor (the source's `Output` is always
`PFrac<TrimOut<U>>` / `NFrac<TrimOut<U>>`). -/
def ftrim : FracV → FracV
  | .F0 => .F0
  | .PFrac u => .PFrac (trim u)
  | .NFrac u => .NFrac (trim u)

/-- `Cmp` on unsigned fractions (`src/frac.rs` lines 222-264): `UF0` is
equal to itself and below every `UFrac`; two `UFrac`s compare by
cross-multiplication `nl * dr` vs `nr * dl`. -/
def ucmp : UFracV → UFracV → Ordering
  | .UF0, .UF0 => .eq
  | .UF0, .UFrac _ _ => .lt
  | .UFrac _ _, .UF0 => .gt
  | .UFrac nl dl, .UFrac nr dr => compare (nl * dr) (nr * dl)

/-- `Cmp` on signed fractions (`src/frac.rs` lines 266-345). -/
def fcmp : FracV → FracV → Ordering
  | .F0, .F0 => .eq
  | .F0, .PFrac _ => .lt
  | .F0, .NFrac _ => .gt
  | .PFrac _, .F0 => .gt
  | .NFrac _, .F0 => .lt
  | .PFrac a, .PFrac b => ucmp a b
  | .PFrac _, .NFrac _ => .gt
  | .NFrac _, .PFrac _ => .lt
  | .NFrac a, .NFrac b => ucmp b a

/-- Unsigned `Add` (`src/frac.rs` lines 350-402): `UF0` is a two-sided
identity; two `UFrac`s are combined over the least common denominator
`Lcm<Dl, Dr>` with numerator
`Prod<Nl, Dr>/Gcf<Dl, Dr> + Prod<Nr, Dl>/Gcf<Dl, Dr>`.
The result is not re-trimmed. -/
def uadd : UFracV → UFracV → UFracV
  | .UF0, .UF0 => .UF0
  | .UFrac n d, .UF0 => .UFrac n d
  | .UF0, .UFrac n d => .UFrac n d
  | .UFrac nl dl, .UFrac nr dr =>
    .UFrac (nl * dr / Nat.gcd dl dr + nr * dl / Nat.gcd dl dr) (Nat.lcm dl dr)

/-- `PrivateSub` (`src/frac.rs` lines 583-607): the untrimmed LCM-based
difference `UFrac<Diff<Prod<Nl,Dr>/Gcf, Prod<Nr,Dl>/Gcf>, Lcm<Dl,Dr>>`.
`Nat` subtraction is truncated; the source's type-level `Diff` is only
defined when the difference is non-negative, and the signed layer only
invokes it after establishing `lhs ≥ rhs`. -/
def privateSub (nl dl nr dr : Nat) : UFracV :=
  .UFrac (nl * dr / Nat.gcd dl dr - nr * dl / Nat.gcd dl dr) (Nat.lcm dl dr)

/-- Unsigned `Sub` (`src/frac.rs` lines 548-581): `UF0 - UF0 = UF0`,
`x - UF0 = x`, and `UFrac - UFrac` is `PrivateSub` followed by `Trim`.
The source has no `Sub<UFrac<..>> for UF0` impl (such a difference would
be negative); that arm is totalized to `UF0` here and is never reachable
from the signed layer, which subtracts only after a `Greater` compare. -/
def usub : UFracV → UFracV → UFracV
  | .UF0, .UF0 => .UF0
  | .UFrac n d, .UF0 => .UFrac n d
  | .UF0, .UFrac _ _ => .UF0
  | .UFrac nl dl, .UFrac nr dr => trim (privateSub nl dl nr dr)

/-- Unsigned `Mul` (`src/frac.rs` lines 713-756): `UF0` absorbs on either
side; two `UFrac`s multiply componentwise and the product is trimmed. -/
def umul : UFracV → UFracV → UFracV
  | .UF0, .UF0 => .UF0
  | .UFrac _ _, .UF0 => .UF0
  | .UF0, .UFrac _ _ => .UF0
  | .UFrac nl dl, .UFrac nr dr => trim (.UFrac (nl * nr) (dl * dr))

/-- Unsigned `Div` (`src/frac.rs` lines 854-877): `UF0 / UFrac = UF0`,
and `UFrac / UFrac` multiplies by the reciprocal `UFrac<Dr, Nr>`.
The source has no `Div<UF0>` impl (division by zero is not
constructible); that arm is totalized to `UF0` here. -/
def udiv : UFracV → UFracV → UFracV
  | .UF0, .UFrac _ _ => .UF0
  | .UFrac nl dl, .UFrac nr dr => umul (.UFrac nl dl) (.UFrac dr nr)
  | _, .UF0 => .UF0

/-- `Pow` on `UFrac<N, D>` (`src/frac.rs` lines 948-979): exponent zero
(`U0` or `Z0`) yields `UFrac<U1>` (i.e. 1/1) for any base, and a positive
exponent `PInt<U>` raises numerator and denominator componentwise. -/
def powi (n d : Nat) : Nat → UFracV
  | 0 => .UFrac 1 1
  | k + 1 => .UFrac (n ^ (k + 1)) (d ^ (k + 1))

/-- `PrivateRationalAdd` (`src/frac.rs` lines 507-543): given the result
of comparing the positive magnitude `p` against the negative magnitude
`n`, produce `F0` on `Equal`, `PFrac (p - n)` on `Greater`, and
`NFrac (n - p)` on `Less`; the subtractions are the full (trimmed)
unsigned `Sub`. -/
def privateRationalAdd (p : UFracV) : Ordering → UFracV → FracV
  | .eq, _ => .F0
  | .gt, n => .PFrac (usub p n)
  | .lt, n => .NFrac (usub n p)

/-- Signed `Add` (`src/frac.rs` lines 404-505): `F0` is a two-sided
identity, same signs add magnitudes under the sign, and mixed signs
dispatch through `PrivateRationalAdd` on the compare of the positive
magnitude against the negative one. -/
def fadd : FracV → FracV → FracV
  | .F0, .F0 => .F0
  | .F0, .PFrac u => .PFrac u
  | .F0, .NFrac u => .NFrac u
  | .PFrac u, .F0 => .PFrac u
  | .NFrac u, .F0 => .NFrac u
  | .PFrac a, .PFrac b => .PFrac (uadd a b)
  | .NFrac a, .NFrac b => .NFrac (uadd a b)
  | .PFrac a, .NFrac b => privateRationalAdd a (ucmp a b) b
  | .NFrac a, .PFrac b => privateRationalAdd b (ucmp b a) a

/-- Signed `Sub` (`src/frac.rs` lines 609-708): `F0 - P(u) = N(u)`,
`F0 - N(u) = P(u)`, `x - F0 = x`, same signs dispatch through
`PrivateRationalAdd` exactly as the mixed-sign `Add` cases, and mixed
signs add magnitudes under the left operand's sign. -/
def fsub : FracV → FracV → FracV
  | .F0, .F0 => .F0
  | .F0, .PFrac u => .NFrac u
  | .F0, .NFrac u => .PFrac u
  | .PFrac u, .F0 => .PFrac u
  | .NFrac u, .F0 => .NFrac u
  | .PFrac a, .PFrac b => privateRationalAdd a (ucmp a b) b
  | .NFrac a, .NFrac b => privateRationalAdd b (ucmp b a) a
  | .PFrac a, .NFrac b => .PFrac (uadd a b)
  | .NFrac a, .PFrac b => .NFrac (uadd a b)

/-- Modelled from the spec (refinement comparison for `Sub`): `negate`
flips `Positive` to `Negative` and vice versa and leaves `Zero` fixed.
The source has no standalone negation operator in `frac.rs`; this
definition follows the spec's words only, to be compared with `fsub`. -/
def negate : FracV → FracV
  | .F0 => .F0
  | .PFrac u => .NFrac u
  | .NFrac u => .PFrac u

/-- Well-formedness of an unsigned fraction value: the denominator is
drawn from the `NonZero`-marked naturals, as the Rust types enforce
(`UFrac<N, D: Unsigned + NonZero>`). -/
def wf : UFracV → Bool
  | .UF0 => true
  | .UFrac _ d => decide (d ≠ 0)

/-- Canonical form of an unsigned fraction value, as the spec's data
model states it: either the `UF0` singleton, or a `UFrac` with non-zero
numerator and denominator whose components are coprime. -/
def canonical : UFracV → Bool
  | .UF0 => true
  | .UFrac n d => decide (n ≠ 0) && decide (d ≠ 0) && decide (Nat.gcd n d = 1)

/-- The rational value denoted by an unsigned fraction. -/
def val : UFracV → ℚ
  | .UF0 => 0
  | .UFrac n d => (n : ℚ) / (d : ℚ)

/-! ## Helper lemmas shared by several claims -/

theorem canonical_iff {n d : Nat} :
    canonical (.UFrac n d) = true ↔ n ≠ 0 ∧ d ≠ 0 ∧ Nat.gcd n d = 1 := by
  simp [canonical, and_assoc]

theorem wf_of_canonical {x : UFracV} (h : canonical x = true) : wf x = true := by
  cases x with
  | UF0 => rfl
  | UFrac n d =>
    obtain ⟨-, hd, -⟩ := canonical_iff.mp h
    simpa [wf] using hd

theorem trim_canonical {n d : Nat} (hd : d ≠ 0) :
    canonical (trim (.UFrac n d)) = true := by
  by_cases hn : n = 0
  · simp [trim, hn, canonical]
  · have hg : Nat.gcd n d ≠ 0 := fun h => hn (Nat.eq_zero_of_gcd_eq_zero_left h)
    have hq : n / Nat.gcd n d ≠ 0 :=
      Nat.pos_iff_ne_zero.mp
        (Nat.div_pos (Nat.le_of_dvd (Nat.pos_of_ne_zero hn) (Nat.gcd_dvd_left n d))
          (Nat.pos_of_ne_zero hg))
    have hqd : d / Nat.gcd n d ≠ 0 :=
      Nat.pos_iff_ne_zero.mp
        (Nat.div_pos (Nat.le_of_dvd (Nat.pos_of_ne_zero hd) (Nat.gcd_dvd_right n d))
          (Nat.pos_of_ne_zero hg))
    have hcop : Nat.Coprime (n / Nat.gcd n d) (d / Nat.gcd n d) :=
      Nat.coprime_div_gcd_div_gcd (Nat.pos_of_ne_zero hg)
    simp only [trim, if_neg hn]
    exact canonical_iff.mpr ⟨hq, hqd, hcop⟩

theorem trim_val {n d : Nat} (hd : d ≠ 0) :
    val (trim (.UFrac n d)) = val (.UFrac n d) := by
  by_cases hn : n = 0
  · simp [trim, hn, val]
  · have hg : Nat.gcd n d ≠ 0 := fun h => hn (Nat.eq_zero_of_gcd_eq_zero_left h)
    have hgq : (Nat.gcd n d : ℚ) ≠ 0 := Nat.cast_ne_zero.mpr hg
    have hdq : (d : ℚ) ≠ 0 := Nat.cast_ne_zero.mpr hd
    have h1 : ((n / Nat.gcd n d : Nat) : ℚ) = (n : ℚ) / (Nat.gcd n d : ℚ) :=
      Nat.cast_div (Nat.gcd_dvd_left n d) hgq
    have h2 : ((d / Nat.gcd n d : Nat) : ℚ) = (d : ℚ) / (Nat.gcd n d : ℚ) :=
      Nat.cast_div (Nat.gcd_dvd_right n d) hgq
    simp only [trim, if_neg hn, val, h1, h2]
    rw [div_div_div_cancel_right₀]
    exact hgq

theorem canonical_val_inj {a b : UFracV} (ha : canonical a = true)
    (hb : canonical b = true) (h : val a = val b) : a = b := by
  cases a with
  | UF0 =>
    cases b with
    | UF0 => rfl
    | UFrac m e =>
      obtain ⟨hm, he, -⟩ := canonical_iff.mp hb
      exfalso
      simp only [val] at h
      rcases div_eq_zero_iff.mp h.symm with h0 | h0
      · exact hm (Nat.cast_eq_zero.mp h0)
      · exact he (Nat.cast_eq_zero.mp h0)
  | UFrac n d =>
    cases b with
    | UF0 =>
      obtain ⟨hn, hd, -⟩ := canonical_iff.mp ha
      exfalso
      simp only [val] at h
      rcases div_eq_zero_iff.mp h with h0 | h0
      · exact hn (Nat.cast_eq_zero.mp h0)
      · exact hd (Nat.cast_eq_zero.mp h0)
    | UFrac m e =>
      obtain ⟨hn, hd, hcop⟩ := canonical_iff.mp ha
      obtain ⟨hm, he, hcop'⟩ := canonical_iff.mp hb
      simp only [val] at h
      have hcross : (n : ℚ) * e = m * d :=
        (div_eq_div_iff (Nat.cast_ne_zero.mpr hd) (Nat.cast_ne_zero.mpr he)).mp h
      have hcrossN : n * e = m * d := by exact_mod_cast hcross
      have h1 : n ∣ m :=
        Nat.Coprime.dvd_of_dvd_mul_right hcop ⟨e, hcrossN.symm⟩
      have h2 : m ∣ n :=
        Nat.Coprime.dvd_of_dvd_mul_right hcop' ⟨d, hcrossN⟩
      have hnm : n = m := Nat.dvd_antisymm h1 h2
      subst hnm
      have hde : e = d :=
        Nat.eq_of_mul_eq_mul_left (Nat.pos_of_ne_zero hn) hcrossN
      rw [hde]

theorem umul_canonical {a b : UFracV} (ha : wf a = true) (hb : wf b = true) :
    canonical (umul a b) = true := by
  cases a with
  | UF0 => cases b <;> rfl
  | UFrac nl dl =>
    cases b with
    | UF0 => rfl
    | UFrac nr dr =>
      have hdl : dl ≠ 0 := by simpa [wf] using ha
      have hdr : dr ≠ 0 := by simpa [wf] using hb
      exact trim_canonical (Nat.mul_ne_zero hdl hdr)

theorem umul_val {a b : UFracV} (ha : wf a = true) (hb : wf b = true) :
    val (umul a b) = val a * val b := by
  cases a with
  | UF0 => cases b <;> simp [umul, val]
  | UFrac nl dl =>
    cases b with
    | UF0 => simp [umul, val]
    | UFrac nr dr =>
      have hdl : dl ≠ 0 := by simpa [wf] using ha
      have hdr : dr ≠ 0 := by simpa [wf] using hb
      have hdd : dl * dr ≠ 0 := Nat.mul_ne_zero hdl hdr
      rw [show umul (.UFrac nl dl) (.UFrac nr dr)
            = trim (.UFrac (nl * nr) (dl * dr)) from rfl,
        trim_val hdd]
      simp only [val]
      push_cast
      rw [div_mul_div_comm]

/-! ## Claim theorems -/

/-- C1 (counterexample): the canonical operands 1/2 and 1/6 are added by
the unsigned `Add` operator to 4/6, which is not canonical
(gcd 4 6 = 2 ≠ 1), so the operator's result is not always canonical and
a consumer would need to re-invoke `Trim`. -/
theorem c1_add_not_canonical_counterexample :
    canonical (.UFrac 1 2) = true ∧ canonical (.UFrac 1 6) = true ∧
    uadd (.UFrac 1 2) (.UFrac 1 6) = .UFrac 4 6 ∧
    canonical (uadd (.UFrac 1 2) (.UFrac 1 6)) = false := by decide

/-- C1 (amended): for canonical operands, unsigned `Sub`, `Mul` and `Div`
(for a non-zero divisor) do return canonical results, because each passes
its construction through `Trim`; unsigned `Add` does not trim, and its
result is only guaranteed to be a well-formed fraction — `UF0` or a
`UFrac` with non-zero numerator and denominator — not a reduced one. -/
theorem c1_amended_ops_canonical (a b : UFracV)
    (ha : canonical a = true) (hb : canonical b = true) :
    canonical (usub a b) = true ∧
    canonical (umul a b) = true ∧
    (b ≠ .UF0 → canonical (udiv a b) = true) ∧
    (uadd a b = .UF0 ∨ ∃ n d, uadd a b = .UFrac n d ∧ n ≠ 0 ∧ d ≠ 0) := by
  refine ⟨?_, umul_canonical (wf_of_canonical ha) (wf_of_canonical hb), ?_, ?_⟩
  · cases a with
    | UF0 => cases b <;> rfl
    | UFrac nl dl =>
      cases b with
      | UF0 => exact ha
      | UFrac nr dr =>
        obtain ⟨-, hdl, -⟩ := canonical_iff.mp ha
        obtain ⟨-, hdr, -⟩ := canonical_iff.mp hb
        exact trim_canonical (Nat.lcm_ne_zero hdl hdr)
  · intro hbz
    cases b with
    | UF0 => exact absurd rfl hbz
    | UFrac nr dr =>
      obtain ⟨hnr, hdr, -⟩ := canonical_iff.mp hb
      cases a with
      | UF0 => rfl
      | UFrac nl dl =>
        have hw2 : wf (.UFrac dr nr) = true := by simpa [wf] using hnr
        exact umul_canonical (wf_of_canonical ha) hw2
  · cases a with
    | UF0 =>
      cases b with
      | UF0 => exact Or.inl rfl
      | UFrac nr dr =>
        obtain ⟨hnr, hdr, -⟩ := canonical_iff.mp hb
        exact Or.inr ⟨nr, dr, rfl, hnr, hdr⟩
    | UFrac nl dl =>
      obtain ⟨hnl, hdl, -⟩ := canonical_iff.mp ha
      cases b with
      | UF0 => exact Or.inr ⟨nl, dl, rfl, hnl, hdl⟩
      | UFrac nr dr =>
        obtain ⟨hnr, hdr, -⟩ := canonical_iff.mp hb
        refine Or.inr ⟨_, _, rfl, ?_, Nat.lcm_ne_zero hdl hdr⟩
        have hg : Nat.gcd dl dr ≠ 0 := fun h => hdl (Nat.eq_zero_of_gcd_eq_zero_left h)
        have hpos : 0 < nl * dr / Nat.gcd dl dr :=
          Nat.div_pos
            (Nat.le_of_dvd (Nat.pos_of_ne_zero (Nat.mul_ne_zero hnl hdr))
              ((Nat.gcd_dvd_right dl dr).mul_left nl))
            (Nat.pos_of_ne_zero hg)
        exact Nat.pos_iff_ne_zero.mp (Nat.lt_of_lt_of_le hpos (Nat.le_add_right _ _))

/-- C1 (witness): the amended statement instantiated at the canonical
operands 1/2 and 1/3. -/
theorem c1_amended_ops_canonical_witness :
    canonical (.UFrac 1 2) = true ∧ canonical (.UFrac 1 3) = true ∧
    (canonical (usub (.UFrac 1 2) (.UFrac 1 3)) = true ∧
     canonical (umul (.UFrac 1 2) (.UFrac 1 3)) = true ∧
     ((.UFrac 1 3 : UFracV) ≠ .UF0 →
       canonical (udiv (.UFrac 1 2) (.UFrac 1 3)) = true) ∧
     (uadd (.UFrac 1 2) (.UFrac 1 3) = .UF0 ∨
      ∃ n d, uadd (.UFrac 1 2) (.UFrac 1 3) = .UFrac n d ∧ n ≠ 0 ∧ d ≠ 0)) :=
  ⟨by decide, by decide,
    c1_amended_ops_canonical (.UFrac 1 2) (.UFrac 1 3) (by decide) (by decide)⟩

/-- C2 (counterexample): at the signed value `PFrac UF0` the trimmed
magnitude is the `UnsignedZero` singleton, yet the lifted `Trim` returns
`PFrac UF0`, not the signed zero `F0` — the claimed collapse to `F0` is
absent from the code. -/
theorem c2_trim_no_collapse_counterexample :
    trim UFracV.UF0 = UFracV.UF0 ∧
    ftrim (FracV.PFrac UFracV.UF0) = FracV.PFrac UFracV.UF0 ∧
    FracV.PFrac UFracV.UF0 ≠ FracV.F0 := by decide

/-- C2 (amended): `Trim` lifted to signed fractions trims the wrapped
unsigned magnitude and always rewraps it with the same sign constructor;
it never collapses to `F0`. For a non-zero wrapped magnitude the trimmed
magnitude is never `UnsignedZero`, so the collapse case never arises on
invariant-respecting values. -/
theorem c2_amended_signed_trim (u : UFracV) (n d : Nat) (hn : n ≠ 0) :
    ftrim (.PFrac u) = .PFrac (trim u) ∧
    ftrim (.NFrac u) = .NFrac (trim u) ∧
    trim (.UFrac n d) ≠ .UF0 := by
  refine ⟨rfl, rfl, ?_⟩
  simp [trim, hn]

/-- C2 (witness): the amended statement instantiated at magnitude 2/4. -/
theorem c2_amended_signed_trim_witness :
    (2 : Nat) ≠ 0 ∧
    (ftrim (.PFrac (.UFrac 2 4)) = .PFrac (trim (.UFrac 2 4)) ∧
     ftrim (.NFrac (.UFrac 2 4)) = .NFrac (trim (.UFrac 2 4)) ∧
     trim (.UFrac 2 4) ≠ .UF0) :=
  ⟨by decide, c2_amended_signed_trim (.UFrac 2 4) 2 4 (by decide)⟩

/-- C3: unsigned addition has `UF0` as a two-sided identity; on two
`UFrac`s it returns numerator `nl*dr/g + nr*dl/g` over denominator
`dl*dr/g` with `g = gcd dl dr`; and 1/2 + 1/4 = 3/4. -/
theorem c3_add_formula :
    (∀ x, uadd .UF0 x = x) ∧ (∀ x, uadd x .UF0 = x) ∧
    (∀ nl dl nr dr, uadd (.UFrac nl dl) (.UFrac nr dr) =
      .UFrac (nl * dr / Nat.gcd dl dr + nr * dl / Nat.gcd dl dr)
        (dl * dr / Nat.gcd dl dr)) ∧
    uadd (.UFrac 1 2) (.UFrac 1 4) = .UFrac 3 4 := by
  refine ⟨fun x => ?_, fun x => ?_, fun _ _ _ _ => rfl, by decide⟩
  · cases x <;> rfl
  · cases x <;> rfl

/-- C4: adding a positive and a negative fraction dispatches on the
magnitude comparison: equal magnitudes give `F0`, a larger positive
magnitude gives `PFrac` of the difference, a smaller one gives `NFrac`
of the reverse difference, and `NFrac + PFrac` is symmetric with the two
magnitudes' roles swapped. -/
theorem c4_mixed_sign_add (a b : UFracV) :
    (ucmp a b = .eq → fadd (.PFrac a) (.NFrac b) = .F0) ∧
    (ucmp a b = .gt → fadd (.PFrac a) (.NFrac b) = .PFrac (usub a b)) ∧
    (ucmp a b = .lt → fadd (.PFrac a) (.NFrac b) = .NFrac (usub b a)) ∧
    (ucmp b a = .eq → fadd (.NFrac a) (.PFrac b) = .F0) ∧
    (ucmp b a = .gt → fadd (.NFrac a) (.PFrac b) = .PFrac (usub b a)) ∧
    (ucmp b a = .lt → fadd (.NFrac a) (.PFrac b) = .NFrac (usub a b)) := by
  refine ⟨fun h => ?_, fun h => ?_, fun h => ?_, fun h => ?_, fun h => ?_, fun h => ?_⟩ <;>
    simp [fadd, h, privateRationalAdd]

/-- C4 (witness): instantiated at magnitudes 2/3 and 1/3, where the
positive magnitude is greater. -/
theorem c4_mixed_sign_add_witness :
    ucmp (.UFrac 2 3) (.UFrac 1 3) = .gt ∧
    fadd (.PFrac (.UFrac 2 3)) (.NFrac (.UFrac 1 3)) =
      .PFrac (usub (.UFrac 2 3) (.UFrac 1 3)) :=
  ⟨by decide, (c4_mixed_sign_add (.UFrac 2 3) (.UFrac 1 3)).2.1 (by decide)⟩

/-- C5: the comparator's case table — two non-zero unsigned fractions
compare by cross-multiplication, any positive beats any negative,
positive pairs compare their magnitudes directly, and negative pairs
compare their magnitudes in reverse. -/
theorem c5_compare_table (nl dl nr dr : Nat) (hnl : nl ≠ 0) (hnr : nr ≠ 0)
    (a b : UFracV) :
    ucmp (.UFrac nl dl) (.UFrac nr dr) = compare (nl * dr) (nr * dl) ∧
    fcmp (.PFrac a) (.NFrac b) = .gt ∧
    fcmp (.NFrac a) (.PFrac b) = .lt ∧
    fcmp (.PFrac a) (.PFrac b) = ucmp a b ∧
    fcmp (.NFrac a) (.NFrac b) = ucmp b a :=
  ⟨rfl, rfl, rfl, rfl, rfl⟩

/-- C5 (witness): instantiated at 1/2 vs 2/3 and magnitudes 1/2, 2/3. -/
theorem c5_compare_table_witness :
    (1 : Nat) ≠ 0 ∧ (2 : Nat) ≠ 0 ∧
    (ucmp (.UFrac 1 2) (.UFrac 2 3) = compare (1 * 3) (2 * 2) ∧
     fcmp (.PFrac (.UFrac 1 2)) (.NFrac (.UFrac 2 3)) = .gt ∧
     fcmp (.NFrac (.UFrac 1 2)) (.PFrac (.UFrac 2 3)) = .lt ∧
     fcmp (.PFrac (.UFrac 1 2)) (.PFrac (.UFrac 2 3)) = ucmp (.UFrac 1 2) (.UFrac 2 3) ∧
     fcmp (.NFrac (.UFrac 1 2)) (.NFrac (.UFrac 2 3)) = ucmp (.UFrac 2 3) (.UFrac 1 2)) :=
  ⟨by decide, by decide,
    c5_compare_table 1 2 2 3 (by decide) (by decide) (.UFrac 1 2) (.UFrac 2 3)⟩

/-- C6: signed subtraction is signed addition of the sign-flipped right
operand, where `negate` swaps `PFrac`/`NFrac` and fixes `F0`; in
particular `F0 - PFrac u = NFrac u` and `F0 - NFrac u = PFrac u`. -/
theorem c6_sub_is_add_negate (a b : FracV) (u : UFracV) :
    fsub a b = fadd a (negate b) ∧
    fsub .F0 (.PFrac u) = .NFrac u ∧
    fsub .F0 (.NFrac u) = .PFrac u := by
  refine ⟨?_, rfl, rfl⟩
  cases a <;> cases b <;> rfl

/-- C7: exponentiation of a fraction by a non-negative integer exponent:
exponent 0 yields 1/1 for any base (including a zero-valued numerator),
and exponent k ≥ 1 raises numerator and denominator componentwise; in
particular (1/2)^0 = 1/1. -/
theorem c7_pow (n d k : Nat) (hk : 1 ≤ k) :
    powi n d 0 = .UFrac 1 1 ∧
    powi n d k = .UFrac (n ^ k) (d ^ k) ∧
    powi 1 2 0 = .UFrac 1 1 := by
  refine ⟨rfl, ?_, rfl⟩
  obtain ⟨j, rfl⟩ : ∃ j, k = j + 1 := ⟨k - 1, by omega⟩
  rfl

/-- C7 (witness): instantiated at base 1/2 with exponent 2. -/
theorem c7_pow_witness :
    1 ≤ 2 ∧
    (powi 1 2 0 = .UFrac 1 1 ∧
     powi 1 2 2 = .UFrac (1 ^ 2) (2 ^ 2) ∧
     powi 1 2 0 = .UFrac 1 1) :=
  ⟨by decide, c7_pow 1 2 2 (by decide)⟩

/-- C8: dividing a canonical fraction by any non-zero fraction (its
numerator and denominator non-zero, reduced or not) and multiplying back
round-trips to the original value exactly, because division multiplies
by the reciprocal and both steps trim. -/
theorem c8_div_mul_round_trip (a : UFracV) (nr dr : Nat)
    (ha : canonical a = true) (hnr : nr ≠ 0) (hdr : dr ≠ 0) :
    umul (udiv a (.UFrac nr dr)) (.UFrac nr dr) = a := by
  cases a with
  | UF0 => rfl
  | UFrac nl dl =>
    obtain ⟨-, hdl, -⟩ := canonical_iff.mp ha
    have hwa : wf (.UFrac nl dl) = true := wf_of_canonical ha
    have hwrec : wf (.UFrac dr nr) = true := by simpa [wf] using hnr
    have hwb : wf (.UFrac nr dr) = true := by simpa [wf] using hdr
    have hcan1 : canonical (umul (.UFrac nl dl) (.UFrac dr nr)) = true :=
      umul_canonical hwa hwrec
    have hcanr :
        canonical (umul (umul (.UFrac nl dl) (.UFrac dr nr)) (.UFrac nr dr)) = true :=
      umul_canonical (wf_of_canonical hcan1) hwb
    have hval : val (umul (umul (.UFrac nl dl) (.UFrac dr nr)) (.UFrac nr dr)) =
        val (.UFrac nl dl) := by
      rw [umul_val (wf_of_canonical hcan1) hwb, umul_val hwa hwrec]
      simp only [val]
      have h1 : (nr : ℚ) ≠ 0 := Nat.cast_ne_zero.mpr hnr
      have h2 : (dr : ℚ) ≠ 0 := Nat.cast_ne_zero.mpr hdr
      have h3 : (dl : ℚ) ≠ 0 := Nat.cast_ne_zero.mpr hdl
      field_simp
      ring
    rw [show udiv (.UFrac nl dl) (.UFrac nr dr)
          = umul (.UFrac nl dl) (.UFrac dr nr) from rfl]
    exact canonical_val_inj hcanr ha hval

/-- C8 (witness): (2/5 ÷ 2/4) · 2/4 = 2/5, with a non-reduced
divisor. -/
theorem c8_div_mul_round_trip_witness :
    canonical (.UFrac 2 5) = true ∧ (2 : Nat) ≠ 0 ∧ (4 : Nat) ≠ 0 ∧
    umul (udiv (.UFrac 2 5) (.UFrac 2 4)) (.UFrac 2 4) = .UFrac 2 5 :=
  ⟨by decide, by decide, by decide,
    c8_div_mul_round_trip (.UFrac 2 5) 2 4 (by decide) (by decide) (by decide)⟩

/-- C9: `Trim` is idempotent on every unsigned fraction value — the zero
singleton, zero-numerator pairs, and non-zero pairs alike. -/
theorem c9_trim_idempotent (x : UFracV) : trim (trim x) = trim x := by
  cases x with
  | UF0 => rfl
  | UFrac n d =>
    by_cases hn : n = 0
    · simp [trim, hn]
    · have hg : Nat.gcd n d ≠ 0 := fun h => hn (Nat.eq_zero_of_gcd_eq_zero_left h)
      have hq : n / Nat.gcd n d ≠ 0 :=
        Nat.pos_iff_ne_zero.mp
          (Nat.div_pos (Nat.le_of_dvd (Nat.pos_of_ne_zero hn) (Nat.gcd_dvd_left n d))
            (Nat.pos_of_ne_zero hg))
      have hcop : Nat.gcd (n / Nat.gcd n d) (d / Nat.gcd n d) = 1 :=
        Nat.coprime_div_gcd_div_gcd (Nat.pos_of_ne_zero hg)
      simp [trim, hn, hq, hcop, Nat.div_one]

/-- C10: subtracting a fraction from itself yields the `UF0` singleton,
never a zero-numerator pair, because unsigned `Sub` always trims its
LCM-based `PrivateSub` intermediate and `Trim` collapses any zero
numerator to `UF0`. -/
theorem c10_sub_self :
    (∀ n d, usub (.UFrac n d) (.UFrac n d) = .UF0) ∧
    (∀ nl dl nr dr, usub (.UFrac nl dl) (.UFrac nr dr) =
      trim (privateSub nl dl nr dr)) ∧
    (∀ d, trim (.UFrac 0 d) = .UF0) := by
  refine ⟨fun n d => ?_, fun _ _ _ _ => rfl, fun d => rfl⟩
  simp [usub, privateSub, trim, Nat.sub_self]

end TypenumFrac
